import Mathlib

/-!
Verification of the MemTask core: the bounded LRU cache (`src/utils.ts`,
`src/cache.ts`), the entity store facade (`src/memory.ts`, `src/task.ts`),
the task create/update operations (`src/task.ts`), and the task dependency
validation described by the specification.

JavaScript `Map` objects iterate in insertion order; `Map.set` on an
existing key updates the value in place and keeps the key's original
position, while `Map.delete` followed by `Map.set` moves the key to the
end.  We model a `Map` as an association list ordered oldest-first.
-/

namespace MemTask

/-- Lookup in a JS-Map model: first entry whose key matches. -/
def mlookup {K V : Type} [DecidableEq K] : List (K × V) → K → Option V
  | [], _ => none
  | p :: l, k => if p.1 = k then some p.2 else mlookup l k

/-- Deletion in a JS-Map model: remove the (unique) entry with the key. -/
def mdelete {K V : Type} [DecidableEq K] : List (K × V) → K → List (K × V)
  | [], _ => []
  | p :: l, k => if p.1 = k then l else p :: mdelete l k

/-- Insertion in a JS-Map model: `Map.set` updates an existing key in
place (keeping its position in iteration order) and otherwise appends the
new entry at the end. -/
def mset {K V : Type} [DecidableEq K] : List (K × V) → K → V → List (K × V)
  | [], k, v => [(k, v)]
  | p :: l, k, v => if p.1 = k then (k, v) :: l else p :: mset l k v

/-- Keys of a JS-Map model in iteration order (oldest first). -/
def mkeys {K V : Type} (l : List (K × V)) : List K := l.map (·.1)

/-- An entry of the LRU cache from `src/utils.ts`: the stored value and the
absolute expiry time `Date.now() + ttlMs` computed at insertion. -/
structure CacheEntry (V : Type) where
  value : V
  expiry : Nat
  deriving DecidableEq

/-- The `LRUCache` class of `src/utils.ts`.  The field `cache` is the JS
`Map`, modelled as an association list in iteration order (oldest first).
`hits`/`misses` are the `stats` counters. -/
structure LRUCache (K V : Type) where
  cache : List (K × CacheEntry V)
  maxSize : Nat
  ttlMs : Nat
  hits : Nat
  misses : Nat
  deriving DecidableEq

/-- The `LRUCache` constructor: it stores the configuration and starts with
an empty map and zero statistics.  The source performs no validation of
`maxSize` or `ttlMs`. -/
def mkLRUCache (K V : Type) (maxSize ttlMs : Nat) : LRUCache K V :=
  { cache := [], maxSize := maxSize, ttlMs := ttlMs, hits := 0, misses := 0 }

namespace LRUCache

variable {K V : Type} [DecidableEq K]

/-- The `get` method of `LRUCache` (`src/utils.ts` lines 228-255), with the
call to `Date.now()` passed in as `now`.  A missing key records a miss; an
entry with `expiry < now` is deleted and records a miss; otherwise the
entry is deleted and re-inserted (moving it to the most-recently-used
position), a hit is recorded, and the value returned. -/
def get (c : LRUCache K V) (k : K) (now : Nat) :
    Option V × LRUCache K V :=
  match mlookup c.cache k with
  | none => (none, { c with misses := c.misses + 1 })
  | some item =>
    if item.expiry < now then
      (none, { c with cache := mdelete c.cache k, misses := c.misses + 1 })
    else
      (some item.value,
        { c with cache := mset (mdelete c.cache k) k item,
                 hits := c.hits + 1 })

/-- The `set` method of `LRUCache` (`src/utils.ts` lines 260-273).  When
`cache.size >= maxSize` the first key in iteration order (the oldest) is
deleted — regardless of whether the key being set is already present —
and then `Map.set` stores the new entry with expiry `now + ttlMs`. -/
def set (c : LRUCache K V) (k : K) (v : V) (now : Nat) : LRUCache K V :=
  let es :=
    if c.maxSize ≤ c.cache.length then
      match c.cache with
      | [] => c.cache
      | p :: _ => mdelete c.cache p.1
    else c.cache
  { c with cache := mset es k ⟨v, now + c.ttlMs⟩ }

/-- The `delete` method of `LRUCache`: removes the entry, reports whether
it was present, and leaves the statistics untouched. -/
def delete (c : LRUCache K V) (k : K) : Bool × LRUCache K V :=
  ((mlookup c.cache k).isSome, { c with cache := mdelete c.cache k })

/-- The `clear` method of `LRUCache`: removes all entries but does not
reset the statistics. -/
def clear (c : LRUCache K V) : LRUCache K V := { c with cache := [] }

/-- The `getStats` method of `LRUCache`: a snapshot of the counters. -/
def getStats (c : LRUCache K V) : Nat × Nat := (c.hits, c.misses)

/-- The `size` method of `LRUCache`: the current number of entries in the
map, including logically expired ones. -/
def size (c : LRUCache K V) : Nat := c.cache.length

end LRUCache

namespace CacheService

/-- The `has` method of `CacheService` (`src/cache.ts` lines 90-92): it is
literally `this.cache.get(key) !== undefined`, so it performs a full `get`
including lazy expiry and statistics updates. -/
def has {K V : Type} [DecidableEq K] (c : LRUCache K V) (k : K)
    (now : Nat) : Bool × LRUCache K V :=
  let r := LRUCache.get c k now
  (r.1.isSome, r.2)

end CacheService

/-- A recorded lookup request against the cache: either a `get` call on
the cache itself or a `has` call on the wrapping `CacheService`. -/
inductive ReadOp (K : Type) where
  | get (k : K) (now : Nat)
  | has (k : K) (now : Nat)

/-- Apply one lookup request to the cache state. -/
def applyRead {K V : Type} [DecidableEq K] (c : LRUCache K V) :
    ReadOp K → LRUCache K V
  | .get k now => (LRUCache.get c k now).2
  | .has k now => (CacheService.has c k now).2

/-- Run a sequence of `get`/`has` requests, threading the cache state. -/
def runReads {K V : Type} [DecidableEq K] (c : LRUCache K V)
    (ops : List (ReadOp K)) : LRUCache K V :=
  ops.foldl applyRead c

/-- Run a sequence of `set` calls `(key, value, now)`, threading state. -/
def runSets {K V : Type} [DecidableEq K] (c : LRUCache K V)
    (ops : List (K × V × Nat)) : LRUCache K V :=
  ops.foldl (fun c o => c.set o.1 o.2.1 o.2.2) c

/-- A two-entry cache at capacity 2, holding keys 1 and 2. -/
def c3CacheTwo : LRUCache Nat Nat :=
  ((mkLRUCache Nat Nat 2 100).set 1 1 0).set 2 2 0

/-- Outcome of a durable-store read (`fs.readFile` + `JSON.parse`): a
parsed value, an ENOENT (missing file), or another I/O error carrying its
message. -/
inductive ReadResult (V : Type) where
  | ok (v : V)
  | enoent
  | ioError (msg : String)

namespace MemoryManager

variable {V : Type}

/-- The private `load` of `MemoryManager` (`src/memory.ts` lines 286-309)
and identically `TaskManager.load` (`src/task.ts` lines 488-511): check
the cache first; on a miss read the durable store (`readDisk`), populate
the cache on success, map ENOENT to `null`, and — in the catch-all — log
and also return `null` for every other I/O error. -/
def load (c : LRUCache String V) (readDisk : String → ReadResult V)
    (id : String) (now : Nat) : Option V × LRUCache String V :=
  match LRUCache.get c id now with
  | (some v, c') => (some v, c')
  | (none, c') =>
    match readDisk id with
    | .ok v => (some v, LRUCache.set c' id v now)
    | .enoent => (none, c')
    | .ioError _ => (none, c')

/-- The private `save` of `MemoryManager` (`src/memory.ts` lines 272-280):
write the JSON document to the durable store (modelled as an association
list keyed by id), then unconditionally refresh the cache entry. -/
def save (c : LRUCache String V) (st : List (String × V)) (id : String)
    (v : V) (now : Nat) : LRUCache String V × List (String × V) :=
  (LRUCache.set c id v now, mset st id v)

/-- The private `delete` of `MemoryManager` (`src/memory.ts` lines
315-329): unlink the durable file — ENOENT yields `false` and leaves the
cache untouched — and on success evict the cache entry and return
`true`. -/
def delete (c : LRUCache String V) (st : List (String × V))
    (id : String) : Bool × LRUCache String V × List (String × V) :=
  match mlookup st id with
  | some _ => (true, (LRUCache.delete c id).2, mdelete st id)
  | none => (false, c, st)

end MemoryManager

/-- A JavaScript string, modelled as its list of characters. -/
abbrev Str := List Char

/-- The task status union of `src/types.ts`. -/
inductive TaskStatus where
  | todo
  | in_progress
  | completed
  | cancelled
  deriving DecidableEq

/-- The task priority union of `src/types.ts`. -/
inductive TaskPriority where
  | low
  | medium
  | high
  deriving DecidableEq

/-- The `Task` interface of `src/types.ts` (lines 437-449 of the combined
file): note that it has no `depends_on` field. -/
structure Task where
  id : Str
  title : Str
  description : Str
  status : TaskStatus
  priority : TaskPriority
  tags : List Str
  created_at : Str
  updated_at : Str
  due_date : Option Str
  linked_memories : List Str
  progress_notes : List Str
  deriving DecidableEq

/-- The `CreateTaskArgs` type of `src/types.ts`, with unions already
parsed (the string-validation throws in `createTask` are unreachable for
well-typed values). -/
structure CreateTaskArgs where
  title : Str
  description : Str
  priority : Option TaskPriority
  tags : List Str
  due_date : Option Str
  linked_memories : List Str
  deriving DecidableEq

/-- The `UpdateTaskArgs` type of `src/types.ts`.  A JS `undefined` field is
`none`; note `if (args.title)` in the source also treats the empty string
as absent, which the operations model explicitly. -/
structure UpdateTaskArgs where
  id : Str
  status : Option TaskStatus
  title : Option Str
  description : Option Str
  priority : Option TaskPriority
  progress_note : Option Str
  deriving DecidableEq

/-- The sanitization idiom used throughout `src/task.ts`:
`.substring(0, maxLen).replace(/[<>]/g, '')` — truncate first, then strip
every angle bracket. -/
def sanitizeField (maxLen : Nat) (s : Str) : Str :=
  (s.take maxLen).filter (fun c => !(c == '<' || c == '>'))

/-- A progress-note record rendered from the template
described in the source as the ISO timestamp, a colon-space, and the
sanitized text. -/
def formatNote (ts note : Str) : Str := ts ++ ':' :: ' ' :: note

/-- The `createTask` method of `TaskManager` (`src/task.ts` lines
109-168), with `crypto.randomUUID()` and `new Date().toISOString()`
passed in as `id` and `ts`.  The due-date is normalized by `Date` parsing
in the source and is modelled as passed through; status starts at `todo`
with no progress notes. -/
def createTask (args : CreateTaskArgs) (id ts : Str) : Except String Task :=
  if args.title.isEmpty then .error "Title is required"
  else if args.description.isEmpty then .error "Description is required"
  else .ok
    { id := id
      title := sanitizeField 100 args.title
      description := sanitizeField 1000 args.description
      status := .todo
      priority := args.priority.getD .medium
      tags := args.tags.map (sanitizeField 50)
      created_at := ts
      updated_at := ts
      due_date := args.due_date
      linked_memories := args.linked_memories
      progress_notes := [] }

/-- The `if (args.status)` block of `updateTask`: any of the four parsed
status values is assigned unconditionally — the source has no transition
table and no terminal-state check. -/
def applyStatusArg (t : Task) (o : Option TaskStatus) : Task :=
  match o with
  | some s => { t with status := s }
  | none => t

/-- The `if (args.title)` block of `updateTask`: an empty string is falsy
and skipped, otherwise the title is truncated to 100 characters and
stripped of angle brackets. -/
def applyTitleArg (t : Task) (o : Option Str) : Task :=
  match o with
  | some s => if s.isEmpty then t else { t with title := sanitizeField 100 s }
  | none => t

/-- The `if (args.description)` block of `updateTask` (limit 1000). -/
def applyDescriptionArg (t : Task) (o : Option Str) : Task :=
  match o with
  | some s =>
    if s.isEmpty then t else { t with description := sanitizeField 1000 s }
  | none => t

/-- The `if (args.priority)` block of `updateTask`. -/
def applyPriorityArg (t : Task) (o : Option TaskPriority) : Task :=
  match o with
  | some p => { t with priority := p }
  | none => t

/-- The `if (args.progress_note)` block of `updateTask`: a nonempty note
is sanitized to 1000 characters and appended as a timestamped record. -/
def applyNoteArg (t : Task) (o : Option Str) (ts : Str) : Task :=
  match o with
  | some n =>
    if n.isEmpty then t
    else { t with progress_notes :=
            t.progress_notes ++ [formatNote ts (sanitizeField 1000 n)] }
  | none => t

/-- The `updateTask` method of `TaskManager` (`src/task.ts` lines
175-219) applied to an already-loaded task: the argument blocks run in
source order and `updated_at` is then refreshed.  There is no validation
of the current status; there is no `InvalidTransition` error anywhere in
the source. -/
def updateTask (task : Task) (args : UpdateTaskArgs) (ts : Str) : Task :=
  { applyNoteArg
      (applyPriorityArg
        (applyDescriptionArg
          (applyTitleArg (applyStatusArg task args.status) args.title)
          args.description)
        args.priority)
      args.progress_note ts
    with updated_at := ts }

/-- The `updateStatus` method of `TaskManager` (`src/task.ts` lines
380-400) applied to an already-loaded task: any of the four status values
is assigned with no transition check. -/
def updateStatus (task : Task) (status : TaskStatus) (ts : Str) : Task :=
  { task with status := status, updated_at := ts }

/-- The `addProgressNote` method of `TaskManager` (`src/task.ts` lines
355-373) applied to an already-loaded task (the source throws before
loading when the note is empty; the sanitized append below is the
persisted effect for a nonempty note). -/
def addProgressNote (task : Task) (note : Str) (ts : Str) : Task :=
  { task with
      progress_notes :=
        task.progress_notes ++ [formatNote ts (sanitizeField 1000 note)]
      updated_at := ts }

/-- A string free of angle brackets. -/
def cleanStr (s : Str) : Prop := ∀ c ∈ s, c ≠ '<' ∧ c ≠ '>'

instance (s : Str) : Decidable (cleanStr s) := by
  unfold cleanStr
  infer_instance

/-- The sanitization invariant claimed for persisted tasks: the length
limits of `createTask`/`updateTask`/`addProgressNote` and absence of
angle brackets in title, description, tags and progress notes. -/
def TaskClean (t : Task) : Prop :=
  t.title.length ≤ 100 ∧ cleanStr t.title
  ∧ t.description.length ≤ 1000 ∧ cleanStr t.description
  ∧ (∀ tg ∈ t.tags, tg.length ≤ 50 ∧ cleanStr tg)
  ∧ (∀ n ∈ t.progress_notes, cleanStr n)

instance (t : Task) : Decidable (TaskClean t) := by
  unfold TaskClean
  infer_instance

/-- A task already in the terminal `completed` state. -/
def tkDone : Task :=
  { id := ['t'], title := ['T'], description := ['D'],
    status := .completed, priority := .medium, tags := [],
    created_at := [], updated_at := [], due_date := none,
    linked_memories := [], progress_notes := [] }

/-- An update request moving a task to `todo`. -/
def argsToTodo : UpdateTaskArgs :=
  { id := ['t'], status := some .todo, title := none, description := none,
    priority := none, progress_note := none }

/-- An update request re-submitting `completed` with a progress note. -/
def argsSameDone : UpdateTaskArgs :=
  { id := ['t'], status := some .completed, title := none,
    description := none, priority := none, progress_note := some ['o', 'k'] }

/-- An opaque task identifier of the dependency graph. -/
abbrev TaskId := String

/-- The dependency relation over task ids: each entry maps a task id to
its `depends_on` list.  Tasks without an entry have no prerequisites. -/
abbrev DepGraph := List (TaskId × List TaskId)

/-- The `depends_on` list recorded for a task id (empty when absent). -/
def lookupDeps (g : DepGraph) (i : TaskId) : List TaskId :=
  match mlookup g i with
  | some ds => ds
  | none => []

/-- One dependency edge: task `i` depends on task `j`. -/
def Edge (g : DepGraph) (i j : TaskId) : Prop := j ∈ lookupDeps g i

/-- A dependency chain from `a` to `b` whose intermediate nodes are `l`:
one edge when `l = []`, otherwise an edge into the first intermediate
node followed by a chain through the rest. -/
inductive DepChain (g : DepGraph) : TaskId → List TaskId → TaskId → Prop
  | single {a b : TaskId} : Edge g a b → DepChain g a [] b
  | cons {a x b : TaskId} {l : List TaskId} :
      Edge g a x → DepChain g x l b → DepChain g a (x :: l) b

/-- Task `b` is in the dependency closure of `a` (a nonempty path). -/
def ReachesPlus (g : DepGraph) (a b : TaskId) : Prop :=
  ∃ l, DepChain g a l b

/-- The dependency relation, viewed as a directed graph over task ids,
contains no cycle. -/
def Acyclic (g : DepGraph) : Prop := ∀ i, ¬ ReachesPlus g i i

/-- All ids that occur as a dependency target somewhere in the graph. -/
def depTargets : DepGraph → List TaskId
  | [] => []
  | p :: g => p.2 ++ depTargets g

/-- Fuel-bounded reachability: is there a dependency path from `a` to `b`
of length between 1 and `n`? -/
def reachB (g : DepGraph) : Nat → TaskId → TaskId → Bool
  | 0, _, _ => false
  | n + 1, a, b => (lookupDeps g a).any (fun k => k == b || reachB g n k b)

/-- Enough fuel to find any simple dependency path: every intermediate
node of a path is a dependency target, so a duplicate-free path has at
most `(depTargets g).length` intermediates. -/
def cycleFuel (g : DepGraph) : Nat := (depTargets g).length + 1

/-- Modelled from the spec: the `validateNoCycle` operation of the task
dependency engine (spec section 4.4).  The engine (`getExecutableTasks`,
`getTasksInOrder` and the `depends_on` write path of `TaskManager`,
called from `src/server.ts`) is not among the provided sources; per the
spec the walk starts at the candidate task and rejects when the
dependency closure revisits the candidate's id. -/
def validateNoCycle (g : DepGraph) (c : TaskId) : Bool :=
  ! reachB g (cycleFuel g) c c

/-- Replace (or create) the `depends_on` list of task `c`. -/
def setDeps (g : DepGraph) (c : TaskId) (ds : List TaskId) : DepGraph :=
  (c, ds) :: g.filter (fun p => p.1 ≠ c)

/-- Modelled from the spec: a create/update that sets `depends_on` of
task `c` to `ds` (spec sections 3 and 4.4).  The missing `TaskManager`
dependency write path must run `validateNoCycle` before persisting: when
the check rejects, the store `g` is returned unchanged with `false`;
otherwise the new graph is stored and `true` returned. -/
def trySetDeps (g : DepGraph) (c : TaskId) (ds : List TaskId) :
    DepGraph × Bool :=
  let g' := setDeps g c ds
  if validateNoCycle g' c then (g', true) else (g, false)

/-- Executable acyclicity check over every task id with an entry. -/
def acyclicCheck (g : DepGraph) : Bool :=
  (g.map (·.1)).all (fun i => ! reachB g (cycleFuel g) i i)

/-- A one-edge dependency store: task "A" depends on task "B". -/
def gW : DepGraph := [("A", ["B"])]


section MapLemmas

variable {K V : Type} [DecidableEq K]

theorem mlookup_mset_self (l : List (K × V)) (k : K) (v : V) :
    mlookup (mset l k v) k = some v := by
  induction l with
  | nil => simp [mset, mlookup]
  | cons p l ih =>
    by_cases h : p.1 = k <;> simp [mset, mlookup, h, ih]

theorem mlookup_mset_ne (l : List (K × V)) (k k' : K) (v : V) (h : k' ≠ k) :
    mlookup (mset l k v) k' = mlookup l k' := by
  induction l with
  | nil => simp [mset, mlookup, h, Ne.symm h]
  | cons p l ih =>
    by_cases hp : p.1 = k
    · subst hp
      simp [mset, mlookup, Ne.symm h]
    · simp only [mset, if_neg hp, mlookup]
      by_cases hp' : p.1 = k'
      · simp [hp']
      · simp [hp', ih]

theorem mlookup_mdelete_ne (l : List (K × V)) (k k' : K) (h : k' ≠ k) :
    mlookup (mdelete l k) k' = mlookup l k' := by
  induction l with
  | nil => simp [mdelete, mlookup]
  | cons p l ih =>
    by_cases hp : p.1 = k
    · subst hp
      simp [mdelete, mlookup, Ne.symm h]
    · simp only [mdelete, if_neg hp, mlookup]
      by_cases hp' : p.1 = k'
      · simp [hp']
      · simp [hp', ih]

theorem mkeys_cons (p : K × V) (l : List (K × V)) :
    mkeys (p :: l) = p.1 :: mkeys l := rfl

theorem mkeys_mdelete_subset (l : List (K × V)) (k : K) :
    mkeys (mdelete l k) ⊆ mkeys l := by
  induction l with
  | nil => simp [mdelete]
  | cons p l ih =>
    by_cases hp : p.1 = k
    · simp only [mdelete, if_pos hp, mkeys_cons]
      exact fun x hx => List.mem_cons_of_mem _ hx
    · simp only [mdelete, if_neg hp, mkeys_cons]
      exact List.cons_subset_cons _ ih

theorem mlookup_eq_none_of_not_mem (l : List (K × V)) (k : K)
    (h : k ∉ mkeys l) : mlookup l k = none := by
  induction l with
  | nil => simp [mlookup]
  | cons p l ih =>
    rw [mkeys_cons] at h
    simp only [List.mem_cons, not_or] at h
    have hne : ¬ p.1 = k := fun hc => h.1 hc.symm
    simp only [mlookup, if_neg hne]
    exact ih h.2

theorem mlookup_mdelete_self_of_nodup (l : List (K × V)) (k : K)
    (hnd : (mkeys l).Nodup) : mlookup (mdelete l k) k = none := by
  induction l with
  | nil => simp [mdelete, mlookup]
  | cons p l ih =>
    simp only [mkeys, List.map_cons, List.nodup_cons] at hnd
    by_cases hp : p.1 = k
    · subst hp
      simp only [mdelete, if_pos rfl]
      exact mlookup_eq_none_of_not_mem l p.1 hnd.1
    · simp only [mdelete, if_neg hp, mlookup, if_neg hp]
      exact ih hnd.2

theorem length_mset_le (l : List (K × V)) (k : K) (v : V) :
    (mset l k v).length ≤ l.length + 1 := by
  induction l with
  | nil => simp [mset]
  | cons p l ih =>
    by_cases hp : p.1 = k <;> simp [mset, hp] <;> omega

theorem mkeys_mset (l : List (K × V)) (k : K) (v : V) :
    mkeys (mset l k v) =
      if k ∈ mkeys l then mkeys l else mkeys l ++ [k] := by
  induction l with
  | nil => simp [mset, mkeys]
  | cons p l ih =>
    by_cases hp : p.1 = k
    · subst hp
      simp [mset, mkeys]
    · have hkp : k ≠ p.1 := fun h => hp h.symm
      simp only [mset, if_neg hp, mkeys_cons, ih]
      by_cases hk : k ∈ mkeys l <;> simp [hk, hkp]

theorem mset_of_absent (l : List (K × V)) (k : K) (v : V)
    (h : mlookup l k = none) : mset l k v = l ++ [(k, v)] := by
  induction l with
  | nil => simp [mset]
  | cons p l ih =>
    simp only [mlookup] at h
    by_cases hp : p.1 = k
    · simp [hp] at h
    · simp only [mset, if_neg hp, List.cons_append]
      rw [ih (by simpa [hp] using h)]

theorem mkeys_nodup_mdelete (l : List (K × V)) (k : K)
    (hnd : (mkeys l).Nodup) : (mkeys (mdelete l k)).Nodup := by
  induction l with
  | nil => simp [mdelete, mkeys]
  | cons p l ih =>
    simp only [mkeys, List.map_cons, List.nodup_cons] at hnd
    by_cases hp : p.1 = k
    · simpa [mdelete, hp, mkeys] using hnd.2
    · simp only [mdelete, if_neg hp, mkeys, List.map_cons, List.nodup_cons]
      refine ⟨fun hc => hnd.1 ?_, ih hnd.2⟩
      exact mkeys_mdelete_subset l k hc

theorem mkeys_nodup_mset (l : List (K × V)) (k : K) (v : V)
    (hnd : (mkeys l).Nodup) : (mkeys (mset l k v)).Nodup := by
  rw [mkeys_mset]
  by_cases hk : k ∈ mkeys l
  · simpa [hk] using hnd
  · simp only [hk, if_false]
    simpa [List.nodup_append, hk] using hnd

end MapLemmas

section CacheLemmas

variable {K V : Type} [DecidableEq K]

theorem mdelete_head (p : K × V) (l : List (K × V)) :
    mdelete (p :: l) p.1 = l := by
  simp [mdelete]

theorem set_cache_of_lt (c : LRUCache K V) (k : K) (v : V) (now : Nat)
    (h : c.cache.length < c.maxSize) :
    (c.set k v now).cache = mset c.cache k ⟨v, now + c.ttlMs⟩ := by
  simp [LRUCache.set, Nat.not_le.mpr h]

theorem set_maxSize (c : LRUCache K V) (k : K) (v : V) (now : Nat) :
    (c.set k v now).maxSize = c.maxSize := by
  simp [LRUCache.set]

theorem set_length_le (c : LRUCache K V) (k : K) (v : V) (now : Nat)
    (hpos : 1 ≤ c.maxSize) (hle : c.cache.length ≤ c.maxSize) :
    (c.set k v now).cache.length ≤ c.maxSize := by
  by_cases h : c.maxSize ≤ c.cache.length
  · match hc : c.cache with
    | [] =>
      rw [hc] at h
      simp only [List.length_nil] at h
      omega
    | p :: l =>
      have h' : c.maxSize ≤ (p :: l).length := hc ▸ h
      have hstep : (c.set k v now).cache = mset l k ⟨v, now + c.ttlMs⟩ := by
        simp only [LRUCache.set, hc]
        rw [if_pos h', mdelete_head]
      rw [hstep]
      have hlen := length_mset_le l k (⟨v, now + c.ttlMs⟩ : CacheEntry V)
      rw [hc] at hle
      simp only [List.length_cons] at hle
      omega
  · rw [set_cache_of_lt c k v now (Nat.not_le.mp h)]
    have hlen := length_mset_le c.cache k (⟨v, now + c.ttlMs⟩ : CacheEntry V)
    omega

theorem runSets_maxSize (c : LRUCache K V) (ops : List (K × V × Nat)) :
    (runSets c ops).maxSize = c.maxSize := by
  induction ops generalizing c with
  | nil => rfl
  | cons o ops ih => simp [runSets, List.foldl_cons] at *; rw [ih, set_maxSize]

theorem runSets_length_le (c : LRUCache K V) (ops : List (K × V × Nat))
    (hpos : 1 ≤ c.maxSize) (hle : c.cache.length ≤ c.maxSize) :
    (runSets c ops).cache.length ≤ c.maxSize := by
  induction ops generalizing c with
  | nil => exact hle
  | cons o ops ih =>
    simp only [runSets, List.foldl_cons]
    have h1 : (c.set o.1 o.2.1 o.2.2).maxSize = c.maxSize := set_maxSize ..
    have h2 := set_length_le c o.1 o.2.1 o.2.2 hpos hle
    have := ih (c.set o.1 o.2.1 o.2.2) (by omega) (by omega)
    simpa [runSets, h1] using this

/-- Claim C5 (confirmed): for every cache constructed with positive
`maxSize` and every sequence of `set` calls with distinct keys,
`size() <= maxSize` holds after every call (i.e. after every prefix of
the sequence).  The source in fact guarantees this for arbitrary key
sequences; distinctness of keys is not needed. -/
theorem c5_capacity_invariant (maxSize ttl : Nat) (hpos : 1 ≤ maxSize)
    (ops : List (K × V × Nat)) (hdistinct : (ops.map (·.1)).Nodup) :
    ∀ pre suf, ops = pre ++ suf →
      (runSets (mkLRUCache K V maxSize ttl) pre).size ≤ maxSize := by
  intro pre suf hsplit
  have : (runSets (mkLRUCache K V maxSize ttl) pre).cache.length ≤ maxSize :=
    runSets_length_le _ _ (by simpa [mkLRUCache] using hpos)
      (by simp [mkLRUCache])
  simpa [LRUCache.size] using this

/-- Witness for C5 at a concrete sequence of three distinct keys into a
capacity-2 cache. -/
theorem c5_capacity_invariant_witness :
    (runSets (mkLRUCache Nat Nat 2 50) [(1, 10, 0), (2, 20, 0)]).size ≤ 2 :=
  c5_capacity_invariant 2 50 (by decide)
    [(1, 10, 0), (2, 20, 0), (3, 30, 1)] (by decide)
    [(1, 10, 0), (2, 20, 0)] [(3, 30, 1)] (by decide)

/-- Claim C4 (confirmed): `get` checks expiry lazily on access.  A missing
key records a miss and leaves the map unchanged; an entry whose age
exceeds `ttl` (its stored `expiry` is in the past) records a miss, is
removed at that point, and no other entry is touched; a live entry records
a hit, is moved to the most-recently-used (last) position, and its value
is returned. -/
theorem c4_get_lazy_expiry (c : LRUCache K V) (k : K) (now : Nat)
    (hnd : (mkeys c.cache).Nodup) :
    (mlookup c.cache k = none →
       LRUCache.get c k now = (none, { c with misses := c.misses + 1 }))
    ∧ (∀ e : CacheEntry V, mlookup c.cache k = some e → e.expiry < now →
       (LRUCache.get c k now).1 = none
       ∧ (LRUCache.get c k now).2.misses = c.misses + 1
       ∧ (LRUCache.get c k now).2.hits = c.hits
       ∧ mlookup (LRUCache.get c k now).2.cache k = none
       ∧ ∀ k', k' ≠ k →
           mlookup (LRUCache.get c k now).2.cache k' = mlookup c.cache k')
    ∧ (∀ e : CacheEntry V, mlookup c.cache k = some e → ¬ e.expiry < now →
       (LRUCache.get c k now).1 = some e.value
       ∧ (LRUCache.get c k now).2.hits = c.hits + 1
       ∧ (LRUCache.get c k now).2.misses = c.misses
       ∧ (LRUCache.get c k now).2.cache = mdelete c.cache k ++ [(k, e)]) := by
  refine ⟨fun hmiss => ?_, fun e he hexp => ?_, fun e he hexp => ?_⟩
  · simp [LRUCache.get, hmiss]
  · refine ⟨?_, ?_, ?_, ?_, ?_⟩
    · simp [LRUCache.get, he, hexp]
    · simp [LRUCache.get, he, hexp]
    · simp [LRUCache.get, he, hexp]
    · simp [LRUCache.get, he, hexp, mlookup_mdelete_self_of_nodup _ _ hnd]
    · intro k' hk'
      simp [LRUCache.get, he, hexp, mlookup_mdelete_ne _ _ _ hk']
  · have habsent : mlookup (mdelete c.cache k) k = none :=
      mlookup_mdelete_self_of_nodup _ _ hnd
    refine ⟨?_, ?_, ?_, ?_⟩ <;>
      simp [LRUCache.get, he, hexp, mset_of_absent _ _ _ habsent]

/-- Witness for C4: a one-entry cache, queried before and after expiry. -/
theorem c4_get_lazy_expiry_witness :
    ((LRUCache.get ((mkLRUCache Nat Nat 3 10).set 1 7 0) 1 5).1 = some 7)
    ∧ ((LRUCache.get ((mkLRUCache Nat Nat 3 10).set 1 7 0) 1 11).1 = none) := by
  refine ⟨((c4_get_lazy_expiry ((mkLRUCache Nat Nat 3 10).set 1 7 0) 1 5
      (by decide)).2.2 ⟨7, 10⟩ (by decide) (by decide)).1,
    ((c4_get_lazy_expiry ((mkLRUCache Nat Nat 3 10).set 1 7 0) 1 11
      (by decide)).2.1 ⟨7, 10⟩ (by decide) (by decide)).1⟩

/-- Claim C3 is refuted by the code: with `maxSize = 2` holding keys 1 and
2, a `set` on key 2 — which already has a live entry — nevertheless evicts
key 1 (the oldest entry) and leaves the cache with a single entry, because
`set` evicts whenever `size >= maxSize` before checking whether the key is
present. -/
theorem c3_counterexample :
    mlookup c3CacheTwo.cache 1 = some ⟨1, 100⟩
    ∧ mlookup c3CacheTwo.cache 2 = some ⟨2, 100⟩
    ∧ mlookup ((c3CacheTwo.set 2 3 0).cache) 1 = none
    ∧ (c3CacheTwo.set 2 3 0).size = 1 := by
  decide

/-- Claim C3 (corrected): `set` on an existing key below capacity replaces
the value in place and keeps the key's original position in the recency
order (it does not become most-recently-used); and whenever the cache is
at `maxSize`, `set` first evicts the oldest entry even if the key being
set already has an entry — the oldest entry survives only if it is the
key being set itself. -/
theorem c3_set_inplace_and_evict_oldest (c : LRUCache K V) (k : K) (v : V)
    (now : Nat) :
    (c.cache.length < c.maxSize →
       mkeys (c.set k v now).cache =
         (if k ∈ mkeys c.cache then mkeys c.cache else mkeys c.cache ++ [k])
       ∧ mlookup (c.set k v now).cache k = some ⟨v, now + c.ttlMs⟩)
    ∧ (c.maxSize ≤ c.cache.length →
       ∀ p l, c.cache = p :: l → p.1 ≠ k → (mkeys c.cache).Nodup →
         mlookup (c.set k v now).cache p.1 = none) := by
  constructor
  · intro hlt
    rw [set_cache_of_lt c k v now hlt]
    exact ⟨mkeys_mset .., mlookup_mset_self ..⟩
  · intro hge p l hc hpk hnd
    have hstep : (c.set k v now).cache = mset l k ⟨v, now + c.ttlMs⟩ := by
      simp only [LRUCache.set, hc]
      rw [if_pos (hc ▸ hge), mdelete_head]
    rw [hstep, mlookup_mset_ne _ _ _ _ hpk]
    apply mlookup_eq_none_of_not_mem
    rw [hc, mkeys_cons, List.nodup_cons] at hnd
    exact hnd.1

/-- Witness for C3's corrected statement: in-place replacement below
capacity, and eviction of the oldest key at capacity. -/
theorem c3_set_inplace_and_evict_oldest_witness :
    (mkeys (((mkLRUCache Nat Nat 3 100).set 1 1 0).set 1 5 0).cache = [1])
    ∧ (mlookup ((c3CacheTwo.set 2 3 0).cache) 1 = none) := by
  constructor
  · have h := (c3_set_inplace_and_evict_oldest
      ((mkLRUCache Nat Nat 3 100).set 1 1 0) 1 5 0).1 (by decide)
    rw [h.1]
    decide
  · exact (c3_set_inplace_and_evict_oldest c3CacheTwo 2 3 0).2 (by decide)
      (1, ⟨1, 100⟩) [(2, ⟨2, 100⟩)] (by decide) (by decide) (by decide)

/-- Claim C6 (confirmed): `has` is exactly `get` followed by an
`isSome` test, so it applies lazy expiry and updates the statistics
identically to `get`; every `get` increments exactly one of `hits` or
`misses`; hence after any sequence of N `get`/`has` calls,
`hits + misses` equals N (starting from a fresh cache). -/
theorem c6_stats_conservation_and_has :
    (∀ (c : LRUCache K V) (k : K) (now : Nat),
       CacheService.has c k now =
         ((LRUCache.get c k now).1.isSome, (LRUCache.get c k now).2))
    ∧ (∀ (c : LRUCache K V) (k : K) (now : Nat),
       (LRUCache.get c k now).2.hits + (LRUCache.get c k now).2.misses
         = c.hits + c.misses + 1)
    ∧ (∀ (ops : List (ReadOp K)) (c : LRUCache K V),
       (runReads c ops).hits + (runReads c ops).misses
         = c.hits + c.misses + ops.length)
    ∧ (∀ (ops : List (ReadOp K)) (maxSize ttl : Nat),
       (runReads (mkLRUCache K V maxSize ttl) ops).hits
         + (runReads (mkLRUCache K V maxSize ttl) ops).misses
         = ops.length) := by
  have hstep : ∀ (c : LRUCache K V) (k : K) (now : Nat),
      (LRUCache.get c k now).2.hits + (LRUCache.get c k now).2.misses
        = c.hits + c.misses + 1 := by
    intro c k now
    unfold LRUCache.get
    cases hl : mlookup c.cache k with
    | none => simp; omega
    | some e =>
      by_cases hexp : e.expiry < now <;> simp [hexp] <;> omega
  have hseq : ∀ (ops : List (ReadOp K)) (c : LRUCache K V),
      (runReads c ops).hits + (runReads c ops).misses
        = c.hits + c.misses + ops.length := by
    intro ops
    induction ops with
    | nil => intro c; simp [runReads]
    | cons o ops ih =>
      intro c
      have hone : (applyRead c o).hits + (applyRead c o).misses
          = c.hits + c.misses + 1 := by
        cases o with
        | get k now => simpa [applyRead] using hstep c k now
        | has k now =>
          simpa [applyRead, CacheService.has] using hstep c k now
      calc (runReads c (o :: ops)).hits + (runReads c (o :: ops)).misses
          = (runReads (applyRead c o) ops).hits
            + (runReads (applyRead c o) ops).misses := by
            simp [runReads, List.foldl_cons]
        _ = (applyRead c o).hits + (applyRead c o).misses + ops.length :=
            ih (applyRead c o)
        _ = c.hits + c.misses + (o :: ops).length := by
            rw [hone]; simp; omega
  refine ⟨fun c k now => rfl, hstep, hseq, fun ops maxSize ttl => ?_⟩
  simpa [mkLRUCache] using hseq ops (mkLRUCache K V maxSize ttl)

/-- Claim C7 is refuted by the code: neither the `LRUCache` constructor
nor the `CacheService` constructor rejects `maxSize <= 0`; constructing
with `maxSize = 0` succeeds and yields a cache on which `set` works, after
which `size()` even exceeds `maxSize`. -/
theorem c7_counterexample :
    (mkLRUCache Nat Nat 0 5).maxSize = 0
    ∧ (mkLRUCache Nat Nat 0 5).cache = []
    ∧ ((mkLRUCache Nat Nat 0 5).set 7 1 0).size = 1 := by
  decide

/-- Claim C7 (corrected): none of the cache operations throw under normal
use — in the model they are total functions — but invalid configuration is
NOT rejected at construction: for every `maxSize` (including 0) the
constructor returns a cache with an empty map and zero statistics, and a
cache constructed with `maxSize = 0` accepts `set` calls, ending with one
entry (so `size() > maxSize`). -/
theorem c7_no_construction_validation :
    (∀ maxSize ttl : Nat,
       (mkLRUCache K V maxSize ttl).cache = []
       ∧ (mkLRUCache K V maxSize ttl).maxSize = maxSize
       ∧ (mkLRUCache K V maxSize ttl).ttlMs = ttl
       ∧ (mkLRUCache K V maxSize ttl).getStats = (0, 0))
    ∧ (∀ (ttl : Nat) (k : K) (v : V) (now : Nat),
       ((mkLRUCache K V 0 ttl).set k v now).size = 1) := by
  refine ⟨fun maxSize ttl => ⟨rfl, rfl, rfl, rfl⟩, fun ttl k v now => ?_⟩
  simp [mkLRUCache, LRUCache.set, LRUCache.size, mset]

theorem get_ttlMs (c : LRUCache K V) (k : K) (now : Nat) :
    (LRUCache.get c k now).2.ttlMs = c.ttlMs := by
  unfold LRUCache.get
  cases mlookup c.cache k with
  | none => rfl
  | some e => by_cases hexp : e.expiry < now <;> simp [hexp]

theorem set_lookup_self (c : LRUCache K V) (k : K) (v : V) (now : Nat) :
    mlookup (c.set k v now).cache k = some ⟨v, now + c.ttlMs⟩ := by
  unfold LRUCache.set
  exact mlookup_mset_self ..

end CacheLemmas

section EntityStoreLemmas

variable {V : Type}

/-- Claim C8 (confirmed): `load` checks the cache first (on a hit the
durable store is irrelevant) and on a miss populates the cache from a
successful durable read before returning; `save` writes to the durable
store and then unconditionally refreshes the cache entry; `delete`
deletes from the durable store and then evicts the cache entry; a
durable-store ENOENT is returned as the typed absent value `none` (the
model's result type has no exception channel: the source maps ENOENT to
`null` rather than throwing). -/
theorem c8_entity_store_semantics (c : LRUCache String V)
    (st : List (String × V)) (id : String) (now : Nat) :
    (∀ (d1 d2 : String → ReadResult V) (v : V),
       (LRUCache.get c id now).1 = some v →
         MemoryManager.load c d1 id now = (some v, (LRUCache.get c id now).2)
         ∧ MemoryManager.load c d1 id now = MemoryManager.load c d2 id now)
    ∧ (∀ (d : String → ReadResult V) (v : V),
       (LRUCache.get c id now).1 = none → d id = .ok v →
         (MemoryManager.load c d id now).1 = some v
         ∧ mlookup (MemoryManager.load c d id now).2.cache id
             = some ⟨v, now + c.ttlMs⟩)
    ∧ (∀ d : String → ReadResult V,
       (LRUCache.get c id now).1 = none → d id = .enoent →
         MemoryManager.load c d id now = (none, (LRUCache.get c id now).2))
    ∧ (∀ v : V,
       mlookup (MemoryManager.save c st id v now).2 id = some v
       ∧ mlookup (MemoryManager.save c st id v now).1.cache id
           = some ⟨v, now + c.ttlMs⟩)
    ∧ (∀ v : V, mlookup st id = some v →
       (mkeys st).Nodup → (mkeys c.cache).Nodup →
         (MemoryManager.delete c st id).1 = true
         ∧ mlookup (MemoryManager.delete c st id).2.2 id = none
         ∧ mlookup (MemoryManager.delete c st id).2.1.cache id = none)
    ∧ (mlookup st id = none → (MemoryManager.delete c st id).1 = false) := by
  refine ⟨?_, ?_, ?_, ?_, ?_, ?_⟩
  · intro d1 d2 v hhit
    unfold MemoryManager.load
    rcases hg : LRUCache.get c id now with ⟨r, c'⟩
    rw [hg] at hhit
    simp at hhit
    subst hhit
    exact ⟨rfl, rfl⟩
  · intro d v hmiss hok
    unfold MemoryManager.load
    rcases hg : LRUCache.get c id now with ⟨r, c'⟩
    rw [hg] at hmiss
    simp at hmiss
    subst hmiss
    have httl : c'.ttlMs = c.ttlMs := by
      have := get_ttlMs c id now
      rw [hg] at this
      exact this
    simp [hok, set_lookup_self, httl]
  · intro d hmiss henoent
    unfold MemoryManager.load
    rcases hg : LRUCache.get c id now with ⟨r, c'⟩
    rw [hg] at hmiss
    simp at hmiss
    subst hmiss
    simp [henoent]
  · intro v
    exact ⟨mlookup_mset_self .., set_lookup_self ..⟩
  · intro v hpresent hndst hndc
    unfold MemoryManager.delete
    rw [hpresent]
    exact ⟨rfl, mlookup_mdelete_self_of_nodup _ _ hndst,
      mlookup_mdelete_self_of_nodup _ _ hndc⟩
  · intro habsent
    unfold MemoryManager.delete
    rw [habsent]

/-- Witness for C8 on a concrete one-entry cache and one-entry store. -/
theorem c8_entity_store_semantics_witness :
    (MemoryManager.load ((mkLRUCache String Nat 5 100).set "a" 1 0)
        (fun _ => ReadResult.enoent) "a" 50).1 = some 1
    ∧ (MemoryManager.load (mkLRUCache String Nat 5 100)
        (fun _ => ReadResult.ok 2) "b" 0).1 = some 2
    ∧ (MemoryManager.delete (mkLRUCache String Nat 5 100)
        [("a", (3 : Nat))] "a").1 = true := by
  refine ⟨?_, ?_, ?_⟩
  · exact (((c8_entity_store_semantics ((mkLRUCache String Nat 5 100).set "a" 1 0)
      [] "a" 50).1 (fun _ => ReadResult.enoent) (fun _ => ReadResult.enoent)
      1 (by decide)).1).symm ▸ rfl
  · exact ((c8_entity_store_semantics (mkLRUCache String Nat 5 100)
      [] "b" 0).2.1 (fun _ => ReadResult.ok 2) 2 (by decide) rfl).1
  · exact ((c8_entity_store_semantics (mkLRUCache String Nat 5 100)
      [("a", (3 : Nat))] "a" 0).2.2.2.2.1 3 (by decide) (by decide)
      (by decide)).1

/-- Claim C9 is refuted by the code: a durable-store read failing with an
I/O error other than ENOENT (here "EACCES") is caught by the catch-all in
`load` and converted into the absent result `null` — it is not propagated
to the caller. -/
theorem c9_counterexample :
    MemoryManager.load (mkLRUCache String Nat 5 10)
      (fun _ => ReadResult.ioError "EACCES") "a" 0
      = (none, { mkLRUCache String Nat 5 10 with misses := 1 }) := by
  decide

/-- Claim C9 (corrected): on a cache miss whose durable read fails with an
I/O error other than ENOENT, `load` catches the error, logs it, and
returns the absent result `none` exactly as for a missing file; the error
is not propagated (the model's result type has no error channel, matching
the source's catch-all `return null`), and the store is consulted only
once with no retry. -/
theorem c9_load_swallows_io_errors (c : LRUCache String V)
    (d : String → ReadResult V) (id : String) (now : Nat) (msg : String)
    (hmiss : (LRUCache.get c id now).1 = none)
    (herr : d id = .ioError msg) :
    MemoryManager.load c d id now = (none, (LRUCache.get c id now).2) := by
  unfold MemoryManager.load
  rcases hg : LRUCache.get c id now with ⟨r, c'⟩
  rw [hg] at hmiss
  simp at hmiss
  subst hmiss
  simp [herr]

/-- Witness for C9's corrected statement on an empty cache. -/
theorem c9_load_swallows_io_errors_witness :
    MemoryManager.load (mkLRUCache String Nat 5 10)
      (fun _ => ReadResult.ioError "EIO") "x" 3
      = (none, (LRUCache.get (mkLRUCache String Nat 5 10) "x" 3).2) :=
  c9_load_swallows_io_errors (mkLRUCache String Nat 5 10)
    (fun _ => ReadResult.ioError "EIO") "x" 3 "EIO" (by decide) rfl

end EntityStoreLemmas

section TaskLemmas

theorem sanitizeField_length (n : Nat) (s : Str) :
    (sanitizeField n s).length ≤ n := by
  calc (sanitizeField n s).length
      ≤ (s.take n).length := List.length_filter_le _ _
    _ ≤ n := by simp [List.length_take]

theorem sanitizeField_clean (n : Nat) (s : Str) :
    cleanStr (sanitizeField n s) := by
  intro c hc
  simp only [sanitizeField, List.mem_filter] at hc
  rcases hc with ⟨-, hc⟩
  simp only [Bool.not_eq_true', Bool.or_eq_false_iff, beq_eq_false_iff_ne]
    at hc
  exact hc

theorem formatNote_clean (ts note : Str) (hts : cleanStr ts)
    (hnote : cleanStr note) : cleanStr (formatNote ts note) := by
  intro c hc
  simp only [formatNote, List.mem_append, List.mem_cons] at hc
  rcases hc with h | h | h | h
  · exact hts c h
  · subst h; exact ⟨by decide, by decide⟩
  · subst h; exact ⟨by decide, by decide⟩
  · exact hnote c h

theorem applyStatusArg_fields (t : Task) (o : Option TaskStatus) :
    (applyStatusArg t o).title = t.title
    ∧ (applyStatusArg t o).description = t.description
    ∧ (applyStatusArg t o).tags = t.tags
    ∧ (applyStatusArg t o).progress_notes = t.progress_notes
    ∧ (applyStatusArg t o).status = o.getD t.status := by
  cases o <;> simp [applyStatusArg]

theorem applyTitleArg_fields (t : Task) (o : Option Str) :
    (applyTitleArg t o).status = t.status
    ∧ (applyTitleArg t o).description = t.description
    ∧ (applyTitleArg t o).tags = t.tags
    ∧ (applyTitleArg t o).progress_notes = t.progress_notes := by
  cases o with
  | none => exact ⟨rfl, rfl, rfl, rfl⟩
  | some s =>
    by_cases h : s.isEmpty <;> simp [applyTitleArg, h]

theorem applyDescriptionArg_fields (t : Task) (o : Option Str) :
    (applyDescriptionArg t o).status = t.status
    ∧ (applyDescriptionArg t o).title = t.title
    ∧ (applyDescriptionArg t o).tags = t.tags
    ∧ (applyDescriptionArg t o).progress_notes = t.progress_notes := by
  cases o with
  | none => exact ⟨rfl, rfl, rfl, rfl⟩
  | some s =>
    by_cases h : s.isEmpty <;> simp [applyDescriptionArg, h]

theorem applyPriorityArg_fields (t : Task) (o : Option TaskPriority) :
    (applyPriorityArg t o).status = t.status
    ∧ (applyPriorityArg t o).title = t.title
    ∧ (applyPriorityArg t o).description = t.description
    ∧ (applyPriorityArg t o).tags = t.tags
    ∧ (applyPriorityArg t o).progress_notes = t.progress_notes := by
  cases o <;> simp [applyPriorityArg]

theorem applyNoteArg_fields (t : Task) (o : Option Str) (ts : Str) :
    (applyNoteArg t o ts).status = t.status
    ∧ (applyNoteArg t o ts).title = t.title
    ∧ (applyNoteArg t o ts).description = t.description
    ∧ (applyNoteArg t o ts).tags = t.tags := by
  cases o with
  | none => exact ⟨rfl, rfl, rfl, rfl⟩
  | some s =>
    by_cases h : s.isEmpty <;> simp [applyNoteArg, h]

theorem applyNoteArg_notes (t : Task) (o : Option Str) (ts : Str) :
    (o = none → (applyNoteArg t o ts).progress_notes = t.progress_notes)
    ∧ (∀ n, o = some n → ¬ n.isEmpty →
        (applyNoteArg t o ts).progress_notes
          = t.progress_notes ++ [formatNote ts (sanitizeField 1000 n)]) := by
  constructor
  · intro h; subst h; rfl
  · intro n h hne
    subst h
    simp [applyNoteArg, hne]

theorem updateTask_status (task : Task) (args : UpdateTaskArgs) (ts : Str) :
    (updateTask task args ts).status = args.status.getD task.status := by
  unfold updateTask
  have h1 := applyNoteArg_fields
    (applyPriorityArg
      (applyDescriptionArg
        (applyTitleArg (applyStatusArg task args.status) args.title)
        args.description)
      args.priority) args.progress_note ts
  have h2 := applyPriorityArg_fields
    (applyDescriptionArg
      (applyTitleArg (applyStatusArg task args.status) args.title)
      args.description) args.priority
  have h3 := applyDescriptionArg_fields
    (applyTitleArg (applyStatusArg task args.status) args.title)
    args.description
  have h4 := applyTitleArg_fields (applyStatusArg task args.status)
    args.title
  have h5 := applyStatusArg_fields task args.status
  simp only []
  rw [show ({ applyNoteArg
      (applyPriorityArg
        (applyDescriptionArg
          (applyTitleArg (applyStatusArg task args.status) args.title)
          args.description)
        args.priority)
      args.progress_note ts with updated_at := ts } : Task).status
    = (applyNoteArg
      (applyPriorityArg
        (applyDescriptionArg
          (applyTitleArg (applyStatusArg task args.status) args.title)
          args.description)
        args.priority)
      args.progress_note ts).status from rfl]
  rw [h1.1, h2.1, h3.1, h4.1, h5.2.2.2.2]

theorem updateTask_notes (task : Task) (args : UpdateTaskArgs) (ts : Str) :
    (args.progress_note = none →
       (updateTask task args ts).progress_notes = task.progress_notes)
    ∧ (∀ n, args.progress_note = some n → ¬ n.isEmpty →
       (updateTask task args ts).progress_notes
         = task.progress_notes ++ [formatNote ts (sanitizeField 1000 n)]) := by
  unfold updateTask
  set base := applyPriorityArg
    (applyDescriptionArg
      (applyTitleArg (applyStatusArg task args.status) args.title)
      args.description)
    args.priority with hbase
  have hpres : base.progress_notes = task.progress_notes := by
    rw [hbase]
    rw [(applyPriorityArg_fields _ _).2.2.2.2,
      (applyDescriptionArg_fields _ _).2.2.2,
      (applyTitleArg_fields _ _).2.2.2,
      (applyStatusArg_fields _ _).2.2.2.1]
  have hnotes := applyNoteArg_notes base args.progress_note ts
  constructor
  · intro h
    have := hnotes.1 h
    simpa [hpres] using this
  · intro n h hne
    have := hnotes.2 n h hne
    simpa [hpres] using this

theorem applyStatusArg_clean (t : Task) (o : Option TaskStatus)
    (h : TaskClean t) : TaskClean (applyStatusArg t o) := by
  cases o <;> exact h

theorem applyTitleArg_clean (t : Task) (o : Option Str)
    (h : TaskClean t) : TaskClean (applyTitleArg t o) := by
  cases o with
  | none => exact h
  | some s =>
    by_cases he : s.isEmpty
    · simpa [applyTitleArg, he] using h
    · obtain ⟨-, -, h3, h4, h5, h6⟩ := h
      simp only [applyTitleArg]
      rw [if_neg he]
      exact ⟨sanitizeField_length _ _, sanitizeField_clean _ _, h3, h4, h5, h6⟩

theorem applyDescriptionArg_clean (t : Task) (o : Option Str)
    (h : TaskClean t) : TaskClean (applyDescriptionArg t o) := by
  cases o with
  | none => exact h
  | some s =>
    by_cases he : s.isEmpty
    · simpa [applyDescriptionArg, he] using h
    · obtain ⟨h1, h2, -, -, h5, h6⟩ := h
      simp only [applyDescriptionArg]
      rw [if_neg he]
      exact ⟨h1, h2, sanitizeField_length _ _, sanitizeField_clean _ _, h5, h6⟩

theorem applyPriorityArg_clean (t : Task) (o : Option TaskPriority)
    (h : TaskClean t) : TaskClean (applyPriorityArg t o) := by
  cases o <;> exact h

theorem applyNoteArg_clean (t : Task) (o : Option Str) (ts : Str)
    (hts : cleanStr ts) (h : TaskClean t) :
    TaskClean (applyNoteArg t o ts) := by
  cases o with
  | none => exact h
  | some n =>
    by_cases he : n.isEmpty
    · simpa [applyNoteArg, he] using h
    · obtain ⟨h1, h2, h3, h4, h5, h6⟩ := h
      simp only [applyNoteArg]
      rw [if_neg he]
      refine ⟨h1, h2, h3, h4, h5, ?_⟩
      intro x hx
      rcases List.mem_append.mp hx with hx | hx
      · exact h6 x hx
      · rcases List.mem_singleton.mp hx with rfl
        exact formatNote_clean _ _ hts (sanitizeField_clean _ _)

theorem updateTask_clean (t : Task) (args : UpdateTaskArgs) (ts : Str)
    (hts : cleanStr ts) (h : TaskClean t) :
    TaskClean (updateTask t args ts) :=
  applyNoteArg_clean _ _ _ hts
    (applyPriorityArg_clean _ _
      (applyDescriptionArg_clean _ _
        (applyTitleArg_clean _ _ (applyStatusArg_clean _ _ h))))

theorem addProgressNote_clean (t : Task) (note ts : Str)
    (hts : cleanStr ts) (h : TaskClean t) :
    TaskClean (addProgressNote t note ts) := by
  obtain ⟨h1, h2, h3, h4, h5, h6⟩ := h
  refine ⟨h1, h2, h3, h4, h5, ?_⟩
  intro x hx
  rcases List.mem_append.mp hx with hx | hx
  · exact h6 x hx
  · rcases List.mem_singleton.mp hx with rfl
    exact formatNote_clean _ _ hts (sanitizeField_clean _ _)

theorem createTask_clean (args : CreateTaskArgs) (id ts : Str) (t : Task)
    (h : createTask args id ts = .ok t) : TaskClean t := by
  unfold createTask at h
  by_cases h1 : args.title.isEmpty
  · simp [h1] at h
  by_cases h2 : args.description.isEmpty
  · simp [h1, h2] at h
  rw [if_neg h1, if_neg h2] at h
  injection h with h
  subst h
  refine ⟨sanitizeField_length _ _, sanitizeField_clean _ _,
    sanitizeField_length _ _, sanitizeField_clean _ _, ?_, ?_⟩
  · intro tg htg
    rcases List.mem_map.mp htg with ⟨s, -, rfl⟩
    exact ⟨sanitizeField_length _ _, sanitizeField_clean _ _⟩
  · intro n hn
    simp at hn

/-- Claim C1 is refuted by the code: `tkDone` is in the terminal state
`completed`, yet an update requesting status `todo` succeeds and changes
the status — there is no `InvalidTransition` error anywhere in
`src/task.ts`. -/
theorem c1_counterexample :
    tkDone.status = TaskStatus.completed
    ∧ (updateTask tkDone argsToTodo []).status = TaskStatus.todo := by
  decide

/-- Claim C1 (corrected): `updateTask` performs no lifecycle validation:
whatever status the update requests (including a transition away from the
terminal `completed`/`cancelled` states) is applied, and `updateStatus`
behaves the same; the second half of the claim does hold — re-submitting
any status together with a nonempty progress note succeeds and appends
exactly one sanitized, timestamped note. -/
theorem c1_update_no_transition_check (task : Task)
    (args : UpdateTaskArgs) (ts : Str) :
    (updateTask task args ts).status = args.status.getD task.status
    ∧ (∀ s, (updateStatus task s ts).status = s)
    ∧ (args.progress_note = none →
        (updateTask task args ts).progress_notes = task.progress_notes)
    ∧ (∀ n, args.progress_note = some n → ¬ n.isEmpty →
        (updateTask task args ts).progress_notes
          = task.progress_notes ++ [formatNote ts (sanitizeField 1000 n)]) :=
  ⟨updateTask_status task args ts, fun _ => rfl,
    (updateTask_notes task args ts).1, (updateTask_notes task args ts).2⟩

/-- Witness for C1's corrected statement: re-submitting `completed` with
note "ok" keeps the status and appends exactly one note. -/
theorem c1_update_no_transition_check_witness :
    (updateTask tkDone argsSameDone ['n']).status = TaskStatus.completed
    ∧ (updateTask tkDone argsSameDone ['n']).progress_notes
        = [formatNote ['n'] (sanitizeField 1000 ['o', 'k'])] := by
  have h := c1_update_no_transition_check tkDone argsSameDone ['n']
  refine ⟨?_, ?_⟩
  · rw [h.1]; decide
  · have hn := h.2.2.2 ['o', 'k'] rfl (by decide)
    simpa [tkDone] using hn

/-- Claim C10 (confirmed): every string field persisted by `createTask`,
`updateTask` or `addProgressNote` is sanitized before the write — titles
to 100 characters, descriptions and progress-note texts to 1000, tags to
50, with every angle bracket removed — so tasks produced by these
operations satisfy `TaskClean` (no angle bracket in those fields),
provided the injected ISO timestamp is itself bracket-free. -/
theorem c10_sanitization_invariant :
    (∀ (args : CreateTaskArgs) (id ts : Str) (t : Task),
       createTask args id ts = .ok t → TaskClean t)
    ∧ (∀ (t : Task) (args : UpdateTaskArgs) (ts : Str),
       TaskClean t → cleanStr ts → TaskClean (updateTask t args ts))
    ∧ (∀ (t : Task) (note ts : Str),
       TaskClean t → cleanStr ts → TaskClean (addProgressNote t note ts)) :=
  ⟨createTask_clean,
    fun t args ts h hts => updateTask_clean t args ts hts h,
    fun t note ts h hts => addProgressNote_clean t note ts hts h⟩

/-- Witness for C10 at concrete inputs containing angle brackets. -/
theorem c10_sanitization_invariant_witness :
    (∀ t, createTask
        { title := ['a', '<', 'b'], description := ['d'], priority := none,
          tags := [['x', '>']], due_date := none, linked_memories := [] }
        ['i'] ['s'] = .ok t → TaskClean t)
    ∧ TaskClean (updateTask tkDone argsSameDone ['n'])
    ∧ TaskClean (addProgressNote tkDone ['z', '<'] ['n']) :=
  ⟨fun t h => c10_sanitization_invariant.1 _ ['i'] ['s'] t h,
    c10_sanitization_invariant.2.1 tkDone argsSameDone ['n']
      (by decide) (by decide),
    c10_sanitization_invariant.2.2 tkDone ['z', '<'] ['n']
      (by decide) (by decide)⟩

end TaskLemmas

section DepGraphLemmas

theorem lookupDeps_cons (p : TaskId × List TaskId) (g : DepGraph)
    (i : TaskId) :
    lookupDeps (p :: g) i = if p.1 = i then p.2 else lookupDeps g i := by
  by_cases h : p.1 = i <;> simp [lookupDeps, mlookup, h]

theorem lookupDeps_setDeps_self (g : DepGraph) (c : TaskId)
    (ds : List TaskId) : lookupDeps (setDeps g c ds) c = ds := by
  simp [setDeps, lookupDeps_cons]

theorem mlookup_filter_ne (g : DepGraph) (c x : TaskId) (hx : x ≠ c) :
    mlookup (g.filter (fun p => p.1 ≠ c)) x = mlookup g x := by
  induction g with
  | nil => rfl
  | cons p g ih =>
    by_cases hp : p.1 = c
    · rw [List.filter_cons_of_neg (by simpa using hp)]
      have hpx : ¬ p.1 = x := fun h => hx (h ▸ hp)
      rw [ih]
      simp only [mlookup, if_neg hpx]
    · rw [List.filter_cons_of_pos (by simpa using hp)]
      simp only [mlookup]
      by_cases hpx : p.1 = x
      · rw [if_pos hpx, if_pos hpx]
      · rw [if_neg hpx, if_neg hpx]
        exact ih

theorem lookupDeps_setDeps_ne (g : DepGraph) (c x : TaskId)
    (ds : List TaskId) (hx : x ≠ c) :
    lookupDeps (setDeps g c ds) x = lookupDeps g x := by
  have hcx : ¬ c = x := fun h => hx h.symm
  simp only [setDeps, lookupDeps_cons]
  rw [if_neg hcx]
  unfold lookupDeps
  rw [mlookup_filter_ne g c x hx]

theorem edge_setDeps_ne (g : DepGraph) (c x y : TaskId)
    (ds : List TaskId) (hx : x ≠ c) :
    Edge (setDeps g c ds) x y ↔ Edge g x y := by
  simp [Edge, lookupDeps_setDeps_ne g c x ds hx]

theorem lookupDeps_subset_depTargets (g : DepGraph) (i y : TaskId)
    (hy : y ∈ lookupDeps g i) : y ∈ depTargets g := by
  induction g with
  | nil => simp [lookupDeps, mlookup] at hy
  | cons p g ih =>
    rw [lookupDeps_cons] at hy
    by_cases hp : p.1 = i
    · rw [if_pos hp] at hy
      simp [depTargets, hy]
    · rw [if_neg hp] at hy
      simp [depTargets, ih hy]

theorem depChain_mem_targets {g : DepGraph} {a b : TaskId}
    {l : List TaskId} (h : DepChain g a l b) :
    (∀ x ∈ l, x ∈ depTargets g) ∧ b ∈ depTargets g := by
  induction h with
  | single he =>
    exact ⟨by simp, lookupDeps_subset_depTargets _ _ _ he⟩
  | cons he _ ih =>
    refine ⟨?_, ih.2⟩
    intro x hx
    rcases List.mem_cons.mp hx with rfl | hx
    · exact lookupDeps_subset_depTargets _ _ _ he
    · exact ih.1 x hx

theorem depChain_join {g : DepGraph} {a x b : TaskId} {u v : List TaskId}
    (h1 : DepChain g a u x) (h2 : DepChain g x v b) :
    DepChain g a (u ++ x :: v) b := by
  induction h1 with
  | single he => exact DepChain.cons he h2
  | cons he _ ih => exact DepChain.cons he (ih h2)

theorem depChain_split {g : DepGraph} {a x b : TaskId} :
    ∀ (u : List TaskId) {v : List TaskId},
      DepChain g a (u ++ x :: v) b → DepChain g a u x ∧ DepChain g x v b := by
  intro u
  induction u generalizing a with
  | nil =>
    intro v h
    cases h with
    | cons he hrest => exact ⟨DepChain.single he, hrest⟩
  | cons y u ih =>
    intro v h
    cases h with
    | cons he hrest =>
      obtain ⟨h1, h2⟩ := ih hrest
      exact ⟨DepChain.cons he h1, h2⟩

theorem depChain_rotate {g : DepGraph} {i c : TaskId} {l : List TaskId}
    (h : DepChain g i l i) (hc : c = i ∨ c ∈ l) : ReachesPlus g c c := by
  rcases hc with rfl | hc
  · exact ⟨l, h⟩
  · obtain ⟨u, v, rfl⟩ := List.append_of_mem hc
    obtain ⟨h1, h2⟩ := depChain_split u h
    exact ⟨v ++ i :: u, depChain_join h2 h1⟩

theorem depChain_avoid {g : DepGraph} {c : TaskId} {ds : List TaskId} :
    ∀ {i b : TaskId} {l : List TaskId},
      DepChain (setDeps g c ds) i l b → i ≠ c → (∀ x ∈ l, x ≠ c) →
      DepChain g i l b := by
  intro i b l h
  induction h with
  | single he =>
    intro hi _
    exact DepChain.single ((edge_setDeps_ne g c _ _ ds hi).mp he)
  | cons he hrest ih =>
    intro hi hl
    refine DepChain.cons ((edge_setDeps_ne g c _ _ ds hi).mp he) ?_
    exact ih (hl _ (List.mem_cons_self _ _)) fun x hx =>
      hl x (List.mem_cons_of_mem _ hx)

theorem exists_dup_decomp {l : List TaskId} (h : ¬ l.Nodup) :
    ∃ (x : TaskId) (u v w : List TaskId), l = u ++ x :: (v ++ x :: w) := by
  induction l with
  | nil => exact absurd List.nodup_nil h
  | cons y t ih =>
    by_cases hy : y ∈ t
    · obtain ⟨v, w, rfl⟩ := List.append_of_mem hy
      exact ⟨y, [], v, w, rfl⟩
    · have ht : ¬ t.Nodup := fun hnd => h (List.nodup_cons.mpr ⟨hy, hnd⟩)
      obtain ⟨x, u, v, w, rfl⟩ := ih ht
      exact ⟨x, y :: u, v, w, rfl⟩

theorem depChain_shorten {g : DepGraph} {a b : TaskId} :
    ∀ (n : Nat) (l : List TaskId), l.length ≤ n → DepChain g a l b →
      ∃ l', DepChain g a l' b ∧ l'.Nodup ∧ l' ⊆ l := by
  intro n
  induction n with
  | zero =>
    intro l hlen h
    have : l = [] := List.eq_nil_of_length_eq_zero (Nat.le_zero.mp hlen)
    subst this
    exact ⟨[], h, List.nodup_nil, List.Subset.refl _⟩
  | succ n ih =>
    intro l hlen h
    by_cases hnd : l.Nodup
    · exact ⟨l, h, hnd, List.Subset.refl _⟩
    · obtain ⟨x, u, v, w, rfl⟩ := exists_dup_decomp hnd
      obtain ⟨h1, h2⟩ := depChain_split u h
      obtain ⟨h3, h4⟩ := depChain_split v h2
      have hjoin : DepChain g a (u ++ x :: w) b := depChain_join h1 h4
      have hlen' : (u ++ x :: w).length ≤ n := by
        simp only [List.length_append, List.length_cons] at hlen ⊢
        omega
      obtain ⟨l', hch, hnd', hsub⟩ := ih (u ++ x :: w) hlen' hjoin
      refine ⟨l', hch, hnd', fun y hy => ?_⟩
      have := hsub hy
      simp only [List.mem_append, List.mem_cons] at this ⊢
      tauto

theorem depChain_to_reachB {g : DepGraph} {a b : TaskId}
    {l : List TaskId} (h : DepChain g a l b) :
    reachB g (l.length + 1) a b = true := by
  induction h with
  | single he =>
    rename_i a' b'
    have : reachB g 1 a' b' = true :=
      List.any_eq_true.mpr ⟨b', he, by simp⟩
    simpa using this
  | cons he htail ih =>
    rename_i a' x b' l'
    have hx : (x == b' || reachB g (l'.length + 1) x b') = true := by
      rw [ih]
      simp
    have : reachB g (l'.length + 1 + 1) a' b' = true :=
      List.any_eq_true.mpr ⟨x, he, hx⟩
    simpa [Nat.add_comm, Nat.add_assoc] using this

theorem reachB_mono (g : DepGraph) :
    ∀ (n m : Nat) (a b : TaskId), n ≤ m → reachB g n a b = true →
      reachB g m a b = true := by
  intro n
  induction n with
  | zero =>
    intro m a b _ h
    simp [reachB] at h
  | succ n ih =>
    intro m a b hnm h
    obtain ⟨m', rfl⟩ : ∃ m', m = m' + 1 :=
      ⟨m - 1, by omega⟩
    simp only [reachB, List.any_eq_true] at h ⊢
    obtain ⟨k, hk, hor⟩ := h
    refine ⟨k, hk, ?_⟩
    rcases Bool.or_eq_true_iff.mp hor with hkb | hrec
    · simp [hkb]
    · simp [ih m' k b (by omega) hrec]

theorem reachB_sound (g : DepGraph) :
    ∀ (n : Nat) (a b : TaskId), reachB g n a b = true →
      ReachesPlus g a b := by
  intro n
  induction n with
  | zero =>
    intro a b h
    simp [reachB] at h
  | succ n ih =>
    intro a b h
    simp only [reachB, List.any_eq_true] at h
    obtain ⟨k, hk, hor⟩ := h
    rcases Bool.or_eq_true_iff.mp hor with hkb | hrec
    · have : k = b := by simpa using hkb
      subst this
      exact ⟨[], DepChain.single hk⟩
    · obtain ⟨l, hch⟩ := ih k b hrec
      exact ⟨k :: l, DepChain.cons hk hch⟩

theorem nodup_length_le_targets {g : DepGraph} {l : List TaskId}
    (hnd : l.Nodup) (hsub : ∀ x ∈ l, x ∈ depTargets g) :
    l.length ≤ (depTargets g).length := by
  have h1 : l.toFinset.card = l.length := List.toFinset_card_of_nodup hnd
  have h2 : l.toFinset ⊆ (depTargets g).toFinset := by
    intro x hx
    rw [List.mem_toFinset] at hx ⊢
    exact hsub x hx
  calc l.length = l.toFinset.card := h1.symm
    _ ≤ (depTargets g).toFinset.card := Finset.card_le_card h2
    _ ≤ (depTargets g).length := (depTargets g).toFinset_card_le

theorem reachesPlus_to_reachB {g : DepGraph} {a b : TaskId}
    (h : ReachesPlus g a b) : reachB g (cycleFuel g) a b = true := by
  obtain ⟨l, hch⟩ := h
  obtain ⟨l', hch', hnd', hsub'⟩ :=
    depChain_shorten l.length l (Nat.le_refl _) hch
  have hmem : ∀ x ∈ l', x ∈ depTargets g := fun x hx =>
    (depChain_mem_targets hch).1 x (hsub' hx)
  have hlen : l'.length ≤ (depTargets g).length :=
    nodup_length_le_targets hnd' hmem
  have := depChain_to_reachB hch'
  exact reachB_mono g (l'.length + 1) (cycleFuel g) a b
    (by simp only [cycleFuel]; omega) this

theorem mlookup_some_key_mem {g : DepGraph} {i : TaskId}
    {ds : List TaskId} (h : mlookup g i = some ds) : i ∈ g.map (·.1) := by
  induction g with
  | nil => simp [mlookup] at h
  | cons p g ih =>
    simp only [mlookup] at h
    by_cases hp : p.1 = i
    · simp [hp]
    · rw [if_neg hp] at h
      simp [ih h]

theorem acyclic_of_check (g : DepGraph) (h : acyclicCheck g = true) :
    Acyclic g := by
  intro i hreach
  have hB : reachB g (cycleFuel g) i i = true := reachesPlus_to_reachB hreach
  obtain ⟨l, hch⟩ := hreach
  have hedge : ∃ x, Edge g i x := by
    cases hch with
    | single he => exact ⟨_, he⟩
    | cons he _ => exact ⟨_, he⟩
  obtain ⟨x, hx⟩ := hedge
  have hkey : i ∈ g.map (·.1) := by
    simp only [Edge, lookupDeps] at hx
    cases hml : mlookup g i with
    | none => rw [hml] at hx; simp at hx
    | some ds => exact mlookup_some_key_mem hml
  have := List.all_eq_true.mp h i hkey
  rw [hB] at this
  simp at this

theorem setDeps_acyclic_of_validate (g : DepGraph) (c : TaskId)
    (ds : List TaskId) (hacyclic : Acyclic g)
    (hv : validateNoCycle (setDeps g c ds) c = true) :
    Acyclic (setDeps g c ds) := by
  intro i hreach
  obtain ⟨l, hch⟩ := hreach
  by_cases hc : c = i ∨ c ∈ l
  · have hcc : ReachesPlus (setDeps g c ds) c c := depChain_rotate hch hc
    have hB := reachesPlus_to_reachB hcc
    simp only [validateNoCycle, Bool.not_eq_true'] at hv
    rw [hB] at hv
    cases hv
  · push_neg at hc
    have hich : DepChain g i l i :=
      depChain_avoid hch (fun h => hc.1 h.symm)
        (fun x hx h => hc.2 (h ▸ hx))
    exact hacyclic i ⟨l, hich⟩

/-- Claim C2 (confirmed against the spec-modelled dependency engine): for
a store whose dependency relation is acyclic, a create/update that sets a
task's `depends_on` is rejected — returning the store unchanged — whenever
the resulting relation would contain a cycle, and whenever the operation
is accepted the resulting store is again acyclic; hence the store never
holds a cyclic dependency graph. -/
theorem c2_cycle_rejected_before_write (g : DepGraph) (c : TaskId)
    (ds : List TaskId) (hacyclic : Acyclic g) :
    (¬ Acyclic (setDeps g c ds) → trySetDeps g c ds = (g, false))
    ∧ Acyclic (trySetDeps g c ds).1
    ∧ ((trySetDeps g c ds).2 = true →
        (trySetDeps g c ds).1 = setDeps g c ds) := by
  by_cases hv : validateNoCycle (setDeps g c ds) c = true
  · have hg' : Acyclic (setDeps g c ds) :=
      setDeps_acyclic_of_validate g c ds hacyclic hv
    have heq : trySetDeps g c ds = (setDeps g c ds, true) := by
      simp [trySetDeps, hv]
    refine ⟨fun hcon => absurd hg' hcon, ?_, fun _ => by rw [heq]⟩
    rw [heq]
    exact hg'
  · have heq : trySetDeps g c ds = (g, false) := by
      simp [trySetDeps, hv]
    refine ⟨fun _ => heq, ?_, fun htrue => ?_⟩
    · rw [heq]
      exact hacyclic
    · rw [heq] at htrue
      cases htrue

/-- Witness for C2: the store `gW` (task "A" depends on "B") is acyclic;
setting `depends_on` of "B" to ["A"] would close the cycle A -> B -> A,
and the theorem applies with the acyclicity hypothesis discharged by the
executable check. -/
theorem c2_cycle_rejected_before_write_witness :
    (¬ Acyclic (setDeps gW "B" ["A"]) →
        trySetDeps gW "B" ["A"] = (gW, false))
    ∧ Acyclic (trySetDeps gW "B" ["A"]).1
    ∧ ((trySetDeps gW "B" ["A"]).2 = true →
        (trySetDeps gW "B" ["A"]).1 = setDeps gW "B" ["A"]) :=
  c2_cycle_rejected_before_write gW "B" ["A"]
    (acyclic_of_check gW (by decide))

end DepGraphLemmas

end MemTask

